import Mathlib

/-!
Shallow embedding of the spyder-watchlist core: the watchlist table widget
(spyder_watchlist/widgets/watchlist.py), the union view over open sessions
(spyder_watchlist/widgets/main_widget.py) and the kernel-side evaluator
(spyder_watchlist/widgets/kernel_backend.py).

A table is a list of rows in display order.  Each row carries the text of
the expression cell (column 0) and the state of the value cell (column 1):
its text, its tooltip, whether its font is bold, and its foreground color
category.  Qt items are mutated in place by the source; here every
operation is a pure function from the old table to the new one, and an
operation that can hit a failed `assert` returns `Except`, carrying in the
error case the table state at the moment the assertion fired.
-/

namespace Watchlist

/-- Foreground color category set by displayValues: the active-palette text
brush, red (used for SyntaxError), or the disabled-palette text brush
(used for NameError and for every other exception). -/
inductive TextColor where
  | normal
  | red
  | disabled
deriving DecidableEq, Repr

/-- State of a value cell (column 1 of a row). -/
structure ValueCell where
  text : String
  tooltip : String
  bold : Bool
  color : TextColor
deriving DecidableEq, Repr

/-- One table row: the expression cell text and the value cell state. -/
structure Row where
  expr : String
  value : ValueCell
deriving DecidableEq, Repr

/-- Python `str.strip()`: remove leading and trailing whitespace. -/
def pyStrip (s : String) : String :=
  String.mk (((s.data.dropWhile Char.isWhitespace).reverse.dropWhile Char.isWhitespace).reverse)

/-- Helper for `splitlines`: walk the characters, cutting a segment at
every line feed; the text after the last line feed forms a final segment
only when it is non-empty (so a trailing newline adds no empty line, as
in Python `str.splitlines`). -/
def splitlinesAux (cur : List Char) : List Char → List String
  | [] => if cur = [] then [] else [String.mk cur.reverse]
  | c :: cs =>
    if c = '\n' then String.mk cur.reverse :: splitlinesAux [] cs
    else splitlinesAux (c :: cur) cs

/-- Python `str.splitlines()` for newline-separated text. -/
def splitlines (s : String) : List String :=
  splitlinesAux [] s.data

/-- Lexicographic comparison of character lists by code point, the order
Python `sorted` uses on strings. -/
def lexLe : List Char → List Char → Bool
  | [], _ => true
  | _ :: _, [] => false
  | a :: as, b :: bs =>
    if a.toNat < b.toNat then true else if b.toNat < a.toNat then false else lexLe as bs

/-- Lexicographic comparison of strings by code point. -/
def strLe (s t : String) : Bool := lexLe s.data t.data

/-- A fresh row as produced by `_insertRow(insertAt, exprText)`: the
expression item holds the given text (empty when no text is given), the
value item is empty, non-bold, with default styling. -/
def mkRow (e : String) : Row :=
  { expr := e
    value := { text := "", tooltip := "", bold := false, color := .normal } }

/-- Result batch type of `eval_watchlist_expressions`:
(expression, evaluation result or exception message, None or exception name),
`WatchlisDataType` in the source. -/
abbrev WatchlisData := List (String × String × Option String)

/-- Insert a row at a given index, the effect of `QTableWidget.insertRow`
for an index within `[0, rowCount]`. -/
def insertAtIdx : Nat → Row → List Row → List Row
  | 0, x, l => x :: l
  | _ + 1, x, [] => [x]
  | n + 1, x, y :: l => y :: insertAtIdx n x l

/-- `getExpressions`: the expression texts in table order, skipping rows
whose expression text is empty (`if text:` in the source loop). -/
def getExpressions (rows : List Row) : List String :=
  (rows.map Row.expr).filter (fun t => t ≠ "")

/-- The loop of `setExpressions`: `for row, expr in enumerate(expressions):
self._insertRow(row, expr)`, inserting row `i` at index `i`. -/
def insertRowsFrom : Nat → List String → List Row → List Row
  | _, [], t => t
  | i, e :: es, t => insertRowsFrom (i + 1) es (insertAtIdx i (mkRow e) t)

/-- `setExpressions`: clears the table (`onRemoveAllAction`) and re-inserts
one row per given expression, in order. -/
def setExpressions (exprs : List String) : List Row :=
  insertRowsFrom 0 exprs []

/-- `clearValues`: sets the text of every value item to the empty string;
nothing else on the row is touched. -/
def clearValues (rows : List Row) : List Row :=
  rows.map fun r => { r with value := { r.value with text := "" } }

/-- The per-row body of the `displayValues` loop: compute the display text
(the result, or a synthesized exception tag), the tooltip (the exception
message, or empty), the font (bold exactly when the freshly computed text
differs from the text currently in the cell), and the foreground color
(red for SyntaxError, disabled brush for NameError and any other
exception, active brush when there is no exception). -/
def displayRow (r : Row) (e : String × String × Option String) : Row :=
  let text := match e.2.2 with
    | none => e.2.1
    | some exc => "<" ++ exc ++ ">"
  let tooltip := match e.2.2 with
    | none => ""
    | some _ => e.2.1
  let bold := if r.value.text = text then false else true
  let color := match e.2.2 with
    | none => TextColor.normal
    | some exc => if exc = "SyntaxError" then TextColor.red else TextColor.disabled
  { r with value := { text := text, tooltip := tooltip, bold := bold, color := color } }

/-- The `for row, (expr, exprVal, exception) in enumerate(data)` loop of
`displayValues`.  Each iteration first asserts that the expression sent
back at this index equals the expression stored in the row; on failure the
error value carries the table as mutated so far (the already processed
prefix is updated, the rest is untouched). -/
def displayLoop : List Row → WatchlisData → Except (List Row) (List Row)
  | rows, [] => .ok rows
  | [], _ :: _ => .error []
  | r :: rs, e :: es =>
    if r.expr = e.1 then
      match displayLoop rs es with
      | .ok rest => .ok (displayRow r e :: rest)
      | .error rest => .error (displayRow r e :: rest)
    else .error (r :: rs)

/-- `displayValues(data)`: `None` clears all value texts; otherwise the
batch length is asserted equal to the row count before the loop starts
(on failure the table is still unchanged), then the loop applies the batch
row by row. -/
def displayValues (data : Option WatchlisData) (rows : List Row) :
    Except (List Row) (List Row) :=
  match data with
  | none => .ok (clearValues rows)
  | some d =>
    if d.length = rows.length then displayLoop rows d
    else .error rows

/-- `onExpressionChanged`, fired when an editor on row `i` closes with
`newText` committed to the expression item: strip the text; when the
stripped text is empty remove the row, otherwise store the stripped text
back into the expression item and reset the value item text to empty. -/
def onExpressionChanged (i : Nat) (newText : String) (rows : List Row) : List Row :=
  match rows.get? i with
  | none => rows
  | some r =>
    let strippedText := pyStrip newText
    if strippedText = "" then rows.eraseIdx i
    else rows.set i { r with expr := strippedText
                             value := { r.value with text := "" } }

/-- The external-text branch of `dropEvent`:
`for line in reversed(text.splitlines())`, skipping empty lines
(`if not line: continue`) and inserting each remaining line, stripped, as
a new row at the drop index.  Iterating the lines in reverse while always
inserting at the same index leaves the lines in their original order. -/
def dropTextLines (insertAt : Nat) (table : List Row) (lines : List String) : List Row :=
  lines.reverse.foldl
    (fun t line => if line = "" then t else insertAtIdx insertAt (mkRow (pyStrip line)) t)
    table

/-- The shape of the mime payload reaching `dropEvent`, after
`dragEnterEvent` filtering: free text (`mime.hasText()`), an internal
single-row drag (`event.source() == self`, the model-data mime format is
present and exactly one row is selected, with `selectedRow` the index of
that row), or anything else. -/
inductive DropPayload where
  | text (s : String)
  | internalRow (selectedRow : Nat)
  | unsupported
deriving DecidableEq, Repr

/-- Outcome of `dropEvent`: the batch was inserted as a copy, a row was
moved, the event was ignored (table untouched), or an `assert` in the
handler fired; each constructor carries the table state at return. -/
inductive DropResult where
  | copied (table : List Row)
  | moved (table : List Row)
  | ignored (table : List Row)
  | assertFailed (table : List Row)
deriving DecidableEq, Repr

/-- `dropEvent` after the drop index has been computed from the cursor
position and the drop indicator (`insertAt`, already including the
below-item adjustment; it is the row count when the cursor is in empty
space).  Text payloads insert the lines and finish with the copy action.
An internal single-row drag moves the selected row: the target index is
decremented when the source row precedes it (the row removal below shifts
the target), the drop is ignored when the adjusted target equals the
source index, and otherwise the items are taken out, the source row
removed, and the row re-inserted at the target, finishing with the move
action.  Any other payload hits `assert False`. -/
def dropEventCore (payload : DropPayload) (insertAt : Nat) (table : List Row) : DropResult :=
  match payload with
  | .text s => .copied (dropTextLines insertAt table (splitlines s))
  | .internalRow selectedRow =>
    let target := if selectedRow < insertAt then insertAt - 1 else insertAt
    if target = selectedRow then .ignored table
    else
      match table.get? selectedRow with
      | none => .assertFailed table
      | some r =>
        let removed := table.eraseIdx selectedRow
        if target ≤ removed.length then .moved (insertAtIdx target r removed)
        else .assertFailed removed
  | .unsupported => .assertFailed table

/-- `WatchlistMainWidget.all_expressions`: the union over all stacked
table widgets of their `getExpressions()`, collected into a set and
returned sorted (`sorted(expressions)`); modelled as deduplication of the
concatenation followed by an insertion sort under the lexicographic
string order. -/
def all_expressions (tables : List (List Row)) : List String :=
  ((tables.foldl (fun acc t => acc ++ getExpressions t) []).dedup).insertionSort
    (fun s t => strLe s t = true)

/-- The value cap in `eval_watchlist_expressions`:
`if len(value) > 512: value = value[:512] + "…"`. -/
def truncateValue (v : String) : String :=
  if v.length > 512 then String.mk (v.toList.take 512) ++ "…" else v

/-- `eval_watchlist_expressions` from the kernel backend.  `ev` models
`str(eval(expr, ns))`: a stringified result, or the caught exception as
(message, class name).  When restricted mode is on and the shell is not
debugging the call returns `None`; otherwise it returns one tuple per
stored expression, in order, never letting one failing expression abort
the batch. -/
def eval_watchlist_expressions (ev : String → Except (String × String) String)
    (watchlist_expressions : List String)
    (watchlist_debugger_only is_debugging : Bool) : Option WatchlisData :=
  if watchlist_debugger_only && !is_debugging then none
  else
    some (watchlist_expressions.map fun expr =>
      match ev expr with
      | .ok value => (expr, truncateValue value, none)
      | .error e => (expr, e.1, some e.2))

/-! Helper lemmas shared by the claim theorems. -/

theorem insertAtIdx_append (A : List Row) (x : Row) (B : List Row) :
    insertAtIdx A.length x (A ++ B) = A ++ x :: B := by
  induction A with
  | nil => rfl
  | cons a A ih => simp [insertAtIdx, ih]

theorem insertAtIdx_length_eq (l : List Row) (x : Row) :
    insertAtIdx l.length x l = l ++ [x] := by
  simpa using insertAtIdx_append l x []

theorem insertRowsFrom_eq (es : List String) : ∀ t : List Row,
    insertRowsFrom t.length es t = t ++ es.map mkRow := by
  induction es with
  | nil => intro t; simp [insertRowsFrom]
  | cons e es ih =>
    intro t
    rw [insertRowsFrom, insertAtIdx_length_eq]
    have h1 : t.length + 1 = (t ++ [mkRow e]).length := by simp
    rw [h1, ih]
    simp

theorem setExpressions_eq_map (exprs : List String) :
    setExpressions exprs = exprs.map mkRow := by
  simpa [setExpressions] using insertRowsFrom_eq exprs []

/-! Claim theorems. -/

/-- C4: `setExpressions` followed by `getExpressions` returns the given
list with its order preserved and the empty entries removed. -/
theorem getExpressions_setExpressions (exprs : List String) :
    getExpressions (setExpressions exprs) = exprs.filter (fun t => t ≠ "") := by
  have hcomp : Row.expr ∘ mkRow = id := rfl
  simp [setExpressions_eq_map, getExpressions, List.map_map, hcomp]

/-- C7: `displayValues` with a null batch empties the text of every value
cell, keeps every expression cell, and changes nothing else on any row. -/
theorem displayValues_none_clears (rows : List Row) (i : Nat) (h : i < rows.length) :
    ∃ out r r2, displayValues none rows = Except.ok out ∧ out.length = rows.length ∧
      rows.get? i = some r ∧ out.get? i = some r2 ∧ r2.expr = r.expr ∧
      r2.value.text = "" ∧ r2.value.tooltip = r.value.tooltip ∧
      r2.value.bold = r.value.bold ∧ r2.value.color = r.value.color := by
  have hr : rows.get? i = some (rows.get ⟨i, h⟩) := List.get?_eq_get h
  have hout : (clearValues rows).get? i =
      some { rows.get ⟨i, h⟩ with value := { (rows.get ⟨i, h⟩).value with text := "" } } := by
    simp only [clearValues, List.get?_eq_getElem?, List.getElem?_map]
    rw [List.get?_eq_getElem?] at hr
    rw [hr]
    rfl
  exact ⟨clearValues rows, rows.get ⟨i, h⟩,
    { rows.get ⟨i, h⟩ with value := { (rows.get ⟨i, h⟩).value with text := "" } },
    rfl, by simp [clearValues], hr, hout, rfl, rfl, rfl, rfl, rfl⟩

/-- C7 witness: a concrete one-row table with a populated value cell. -/
theorem displayValues_none_clears_witness :
    ∃ out r r2,
      displayValues none
        [{ expr := "a", value := { text := "5", tooltip := "tip", bold := true, color := .red } }]
        = Except.ok out ∧
      out.length =
        [({ expr := "a",
            value := { text := "5", tooltip := "tip", bold := true, color := .red } } : Row)].length ∧
      [({ expr := "a",
          value := { text := "5", tooltip := "tip", bold := true, color := .red } } : Row)].get? 0
        = some r ∧
      out.get? 0 = some r2 ∧ r2.expr = r.expr ∧ r2.value.text = "" ∧
      r2.value.tooltip = r.value.tooltip ∧ r2.value.bold = r.value.bold ∧
      r2.value.color = r.value.color :=
  displayValues_none_clears
    [{ expr := "a", value := { text := "5", tooltip := "tip", bold := true, color := .red } }]
    0 (by decide)

/-- C10: a batch whose length differs from the row count fails the length
assertion before the update loop starts, so the table is unchanged; this
atomicity does not extend to a per-index expression mismatch, whose
assertion sits inside the loop, as witnessed by a batch that is wrong at
index 1 and leaves row 0 already updated. -/
theorem displayValues_length_mismatch_atomic (d : WatchlisData) (rows : List Row)
    (h : d.length ≠ rows.length) :
    displayValues (some d) rows = Except.error rows ∧
    displayValues (some [("a", "1", none), ("X", "2", none)]) [mkRow "a", mkRow "b"] =
      Except.error
        [{ expr := "a", value := { text := "1", tooltip := "", bold := true, color := .normal } },
          mkRow "b"] ∧
    ({ expr := "a",
       value := { text := "1", tooltip := "", bold := true, color := .normal } } : Row)
      ≠ mkRow "a" := by
  refine ⟨by simp [displayValues, h], rfl, by decide⟩

/-- C10 witness: an empty batch against a one-row table. -/
theorem displayValues_length_mismatch_atomic_witness :
    displayValues (some []) [mkRow "a"] = Except.error [mkRow "a"] ∧
    displayValues (some [("a", "1", none), ("X", "2", none)]) [mkRow "a", mkRow "b"] =
      Except.error
        [{ expr := "a", value := { text := "1", tooltip := "", bold := true, color := .normal } },
          mkRow "b"] ∧
    ({ expr := "a",
       value := { text := "1", tooltip := "", bold := true, color := .normal } } : Row)
      ≠ mkRow "a" :=
  displayValues_length_mismatch_atomic [] [mkRow "a"] (by decide)

theorem insertAtIdx_eq_of_length (n : Nat) (A B : List Row) (x : Row) (hA : A.length = n) :
    insertAtIdx n x (A ++ B) = A ++ x :: B := by
  subst hA; exact insertAtIdx_append A x B

theorem dropTextLines_eq (insertAt : Nat) (table : List Row) (lines : List String)
    (h : insertAt ≤ table.length) :
    dropTextLines insertAt table lines =
      table.take insertAt ++
        ((lines.filter (fun l => l ≠ "")).map (fun l => mkRow (pyStrip l)) ++
          table.drop insertAt) := by
  have htake : (table.take insertAt).length = insertAt := by
    simp [List.length_take, Nat.min_eq_left h]
  unfold dropTextLines
  rw [List.foldl_reverse]
  induction lines with
  | nil => simp
  | cons l ls ih =>
    simp only [List.foldr_cons, List.filter_cons]
    by_cases hl : l = ""
    · subst hl
      have hd : (decide (("" : String) ≠ "")) = false := by decide
      rw [hd, if_pos rfl]
      simpa using ih
    · have hd : (decide (l ≠ "")) = true := by simp [hl]
      rw [hd, if_neg hl, ih]
      simp only [if_true, List.cons_append]
      exact insertAtIdx_eq_of_length insertAt (table.take insertAt) _ _ htake

/-- C6: committing edited text on a row strips the text; a
whitespace-only edit removes the row; otherwise the row keeps its place
with the stripped expression and an emptied value text, the other rows
untouched. -/
theorem onExpressionChanged_spec (i : Nat) (newText : String) (rows : List Row)
    (h : i < rows.length) :
    (pyStrip newText = "" → onExpressionChanged i newText rows = rows.eraseIdx i) ∧
    (pyStrip newText ≠ "" →
      ∃ r, rows[i]? = some r ∧
        onExpressionChanged i newText rows =
          rows.set i { r with expr := pyStrip newText
                              value := { r.value with text := "" } }) := by
  have hr : rows[i]? = some rows[i] := List.getElem?_eq_getElem h
  constructor
  · intro he
    simp [onExpressionChanged, hr, he]
  · intro he
    refine ⟨rows[i], hr, ?_⟩
    simp [onExpressionChanged, hr, he]

/-- C6 witness: a whitespace-only edit on a one-row table removes the row;
an edit to text with surrounding blanks stores the stripped text and
resets the value text. -/
theorem onExpressionChanged_spec_witness :
    onExpressionChanged 0 "   " [mkRow "x"] = [] ∧
    onExpressionChanged 0 " a + 1 "
        [{ expr := "x", value := { text := "9", tooltip := "", bold := false, color := .normal } }] =
      [{ expr := "a + 1",
         value := { text := "", tooltip := "", bold := false, color := .normal } }] := by
  constructor
  · have h1 := (onExpressionChanged_spec 0 "   " [mkRow "x"] (by decide)).1 (by decide)
    simpa using h1
  · obtain ⟨r, hr, heq⟩ :=
      (onExpressionChanged_spec 0 " a + 1 "
        [{ expr := "x", value := { text := "9", tooltip := "", bold := false, color := .normal } }]
        (by decide)).2 (by decide)
    rw [heq]
    have hr2 :
        ({ expr := "x",
           value := { text := "9", tooltip := "", bold := false, color := .normal } } : Row) = r := by
      simpa using hr
    rw [← hr2]
    decide

/-- C2: an external text drop inserts one row per non-empty line, each
line stripped, in source order ending at the drop index, and finishes
with the copy action; dropping the text consisting of lines x, y, an
empty line, and z on an empty table at index 0 yields the three rows x,
y, z in that order. -/
theorem dropEvent_text_spec (s : String) (table : List Row) (insertAt : Nat)
    (h : insertAt ≤ table.length) :
    dropEventCore (.text s) insertAt table =
      .copied (table.take insertAt ++
        (((splitlines s).filter (fun l => l ≠ "")).map (fun l => mkRow (pyStrip l)) ++
          table.drop insertAt)) ∧
    dropEventCore (.text "x\ny\n\nz") 0 [] = .copied [mkRow "x", mkRow "y", mkRow "z"] :=
  ⟨congrArg DropResult.copied (dropTextLines_eq insertAt table (splitlines s) h), by decide⟩

/-- C2 witness: dropping two lines into the middle of a one-row table. -/
theorem dropEvent_text_spec_witness :
    dropEventCore (.text " a \nb") 1 [mkRow "q"] =
      .copied ([mkRow "q"].take 1 ++
        (((splitlines " a \nb").filter (fun l => l ≠ "")).map (fun l => mkRow (pyStrip l)) ++
          [mkRow "q"].drop 1)) ∧
    dropEventCore (.text "x\ny\n\nz") 0 [] = .copied [mkRow "x", mkRow "y", mkRow "z"] :=
  dropEvent_text_spec " a \nb" [mkRow "q"] 1 (by decide)

/-- C3: an internal single-row drag decrements the target index by one
when the source row precedes the raw target and cancels as a no-op when
the adjusted target equals the source index; dragging row 0 to after
index 2 in a four-row table yields order 1, 2, 0, 3 via the move
action. -/
theorem dropEvent_internal_spec (r0 r1 r2 r3 : Row) (selectedRow raw : Nat)
    (table : List Row) :
    (selectedRow < raw → raw - 1 = selectedRow →
      dropEventCore (.internalRow selectedRow) raw table = .ignored table) ∧
    (raw = selectedRow →
      dropEventCore (.internalRow selectedRow) raw table = .ignored table) ∧
    dropEventCore (.internalRow 0) 3 [r0, r1, r2, r3] = .moved [r1, r2, r0, r3] := by
  refine ⟨?_, ?_, rfl⟩
  · intro h1 h2
    simp [dropEventCore, h1, h2]
  · intro h
    have hlt : ¬ selectedRow < raw := by omega
    simp [dropEventCore, hlt, h]

/-- C3 witness: dropping a row onto its own slot is ignored, and the
four-row example moves row 0 behind row 2. -/
theorem dropEvent_internal_spec_witness :
    dropEventCore (.internalRow 1) 1 [mkRow "a", mkRow "b"] =
      .ignored [mkRow "a", mkRow "b"] ∧
    dropEventCore (.internalRow 0) 3 [mkRow "w", mkRow "x", mkRow "y", mkRow "z"] =
      .moved [mkRow "x", mkRow "y", mkRow "w", mkRow "z"] := by
  have t := dropEvent_internal_spec (mkRow "w") (mkRow "x") (mkRow "y") (mkRow "z")
    1 1 [mkRow "a", mkRow "b"]
  exact ⟨t.2.1 rfl, t.2.2⟩

theorem displayLoop_error_of_mismatch : ∀ (rows : List Row) (d : WatchlisData),
    d.length = rows.length →
    (∃ (i : Nat) (r : Row) (e : String × String × Option String),
      rows[i]? = some r ∧ d[i]? = some e ∧ r.expr ≠ e.1) →
    ∃ t, displayLoop rows d = Except.error t := by
  intro rows
  induction rows with
  | nil =>
    rintro d hlen ⟨i, r, e, hr, he, hne⟩
    simp at hr
  | cons r0 rs ih =>
    rintro d hlen ⟨i, r, e, hr, he, hne⟩
    cases d with
    | nil => simp at hlen
    | cons e0 es =>
      by_cases hexpr : r0.expr = e0.1
      · cases i with
        | zero =>
          simp only [List.getElem?_cons_zero, Option.some.injEq] at hr he
          rw [← hr, ← he] at hne
          exact absurd hexpr hne
        | succ j =>
          have hlen2 : es.length = rs.length := by simpa using hlen
          obtain ⟨t, ht⟩ := ih es hlen2 ⟨j, r, e, by simpa using hr, by simpa using he, hne⟩
          exact ⟨displayRow r0 e0 :: t, by simp [displayLoop, hexpr, ht]⟩
      · exact ⟨r0 :: rs, by simp [displayLoop, hexpr]⟩

/-- C1: a non-null batch whose length differs from the row count, or
whose expression at some index differs from the expression stored in the
row at that index, makes displayValues fail an assertion instead of
returning an updated table. -/
theorem displayValues_protocol_violation (d : WatchlisData) (rows : List Row)
    (h : d.length ≠ rows.length ∨
      ∃ (i : Nat) (r : Row) (e : String × String × Option String),
        rows[i]? = some r ∧ d[i]? = some e ∧ r.expr ≠ e.1) :
    ∃ t, displayValues (some d) rows = Except.error t := by
  by_cases hlen : d.length = rows.length
  · rcases h with h | hmm
    · exact absurd hlen h
    · obtain ⟨t, ht⟩ := displayLoop_error_of_mismatch rows d hlen hmm
      exact ⟨t, by simp [displayValues, hlen, ht]⟩
  · exact ⟨rows, by simp [displayValues, hlen]⟩

/-- C1 witness: a batch of the right length whose expression at index 0
differs from the stored one. -/
theorem displayValues_protocol_violation_witness :
    ∃ t, displayValues (some [("a", "1", none)]) [mkRow "b"] = Except.error t :=
  displayValues_protocol_violation [("a", "1", none)] [mkRow "b"]
    (Or.inr ⟨0, mkRow "b", ("a", "1", none), rfl, rfl, by decide⟩)

theorem displayLoop_ok_of_match : ∀ (rows : List Row) (d : WatchlisData),
    rows.map Row.expr = d.map Prod.fst →
    displayLoop rows d = Except.ok (List.zipWith displayRow rows d) := by
  intro rows
  induction rows with
  | nil =>
    intro d hm
    cases d with
    | nil => rfl
    | cons e es => simp at hm
  | cons r rs ih =>
    intro d hm
    cases d with
    | nil => simp at hm
    | cons e es =>
      simp only [List.map_cons, List.cons.injEq] at hm
      obtain ⟨h1, h2⟩ := hm
      simp [displayLoop, h1, ih es h2]

/-- C5: for a matching batch, each row displays the result string, or the
synthesized tag of the exception name in angle brackets when an exception
is present; the tooltip is the raw failure message exactly when an
exception is present and empty otherwise; and the cell is bold exactly
when the new display text differs from the previously displayed text. -/
theorem displayValues_result_spec (d : WatchlisData) (rows : List Row)
    (hm : rows.map Row.expr = d.map Prod.fst) (i : Nat) (h : i < rows.length) :
    ∃ out r e r2, displayValues (some d) rows = Except.ok out ∧
      out.length = rows.length ∧ rows[i]? = some r ∧ d[i]? = some e ∧
      out[i]? = some r2 ∧ r2.expr = r.expr ∧
      r2.value.text = (match e.2.2 with
        | none => e.2.1
        | some exc => "<" ++ exc ++ ">") ∧
      r2.value.tooltip = (match e.2.2 with
        | none => ""
        | some _ => e.2.1) ∧
      (r2.value.bold = true ↔ r2.value.text ≠ r.value.text) := by
  have hlen : d.length = rows.length := by
    have := congrArg List.length hm
    simpa using this.symm
  have hd : i < d.length := hlen ▸ h
  have hr : rows[i]? = some rows[i] := List.getElem?_eq_getElem h
  have he : d[i]? = some d[i] := List.getElem?_eq_getElem hd
  have hout : displayValues (some d) rows = Except.ok (List.zipWith displayRow rows d) := by
    simp [displayValues, hlen, displayLoop_ok_of_match rows d hm]
  refine ⟨List.zipWith displayRow rows d, rows[i], d[i], displayRow rows[i] d[i],
    hout, ?_, hr, he, ?_, rfl, ?_, ?_, ?_⟩
  · rw [List.length_zipWith, hlen, Nat.min_self]
  · rw [List.getElem?_zipWith, hr, he]
  · simp [displayRow]
  · simp [displayRow]
  · simp only [displayRow]
    by_cases hb : rows[i].value.text = (match d[i].2.2 with
      | none => d[i].2.1
      | some exc => "<" ++ exc ++ ">")
    · simp [hb]
    · simp [hb, Ne.symm hb]

/-- C5 witness: the two-row example from the specification, checked at
row index 1, the NameError row. -/
theorem displayValues_result_spec_witness :
    ∃ out r e r2,
      displayValues (some [("a", "1", none), ("b", "oops", some "NameError")])
          [mkRow "a", mkRow "b"] = Except.ok out ∧
      out.length = [mkRow "a", mkRow "b"].length ∧
      [mkRow "a", mkRow "b"][1]? = some r ∧
      [("a", "1", none), ("b", "oops", some "NameError")][1]? = some e ∧
      out[1]? = some r2 ∧ r2.expr = r.expr ∧
      r2.value.text = (match e.2.2 with
        | none => e.2.1
        | some exc => "<" ++ exc ++ ">") ∧
      r2.value.tooltip = (match e.2.2 with
        | none => ""
        | some _ => e.2.1) ∧
      (r2.value.bold = true ↔ r2.value.text ≠ r.value.text) :=
  displayValues_result_spec [("a", "1", none), ("b", "oops", some "NameError")]
    [mkRow "a", mkRow "b"] (by decide) 1 (by decide)

theorem lexLe_total : ∀ a b : List Char, lexLe a b = true ∨ lexLe b a = true := by
  intro a
  induction a with
  | nil => intro b; left; rfl
  | cons x xs ih =>
    intro b
    cases b with
    | nil => right; rfl
    | cons y ys =>
      by_cases h1 : x.toNat < y.toNat
      · left; simp [lexLe, h1]
      · by_cases h2 : y.toNat < x.toNat
        · right; simp [lexLe, h2]
        · rcases ih ys with h | h
          · left; simp [lexLe, h1, h2, h]
          · right; simp [lexLe, h1, h2, h]

theorem lexLe_trans : ∀ a b c : List Char,
    lexLe a b = true → lexLe b c = true → lexLe a c = true := by
  intro a
  induction a with
  | nil => intro b c _ _; rfl
  | cons x xs ih =>
    intro b c hab hbc
    cases b with
    | nil => simp [lexLe] at hab
    | cons y ys =>
      cases c with
      | nil => simp [lexLe] at hbc
      | cons z zs =>
        simp only [lexLe] at hab hbc ⊢
        by_cases hxy : x.toNat < y.toNat
        · by_cases hyz : y.toNat < z.toNat
          · rw [if_pos (Nat.lt_trans hxy hyz)]
          · by_cases hzy : z.toNat < y.toNat
            · rw [if_neg hyz, if_pos hzy] at hbc
              exact absurd hbc (by simp)
            · have hyz2 : y.toNat = z.toNat := by omega
              rw [if_pos (hyz2 ▸ hxy)]
        · by_cases hyx : y.toNat < x.toNat
          · rw [if_neg hxy, if_pos hyx] at hab
            exact absurd hab (by simp)
          · have hxy2 : x.toNat = y.toNat := by omega
            rw [if_neg hxy, if_neg hyx] at hab
            by_cases hyz : y.toNat < z.toNat
            · rw [if_pos (hxy2 ▸ hyz)]
            · by_cases hzy : z.toNat < y.toNat
              · rw [if_neg hyz, if_pos hzy] at hbc
                exact absurd hbc (by simp)
              · rw [if_neg hyz, if_neg hzy] at hbc
                have hxz : ¬ x.toNat < z.toNat := by omega
                have hzx : ¬ z.toNat < x.toNat := by omega
                rw [if_neg hxz, if_neg hzx]
                exact ih ys zs hab hbc

instance : IsTotal String (fun s t => strLe s t = true) :=
  ⟨fun s t => lexLe_total s.data t.data⟩

instance : IsTrans String (fun s t => strLe s t = true) :=
  ⟨fun a b c => lexLe_trans a.data b.data c.data⟩

theorem mem_foldl_getExpressions (s : String) :
    ∀ (tables : List (List Row)) (acc : List String),
      s ∈ tables.foldl (fun acc t => acc ++ getExpressions t) acc ↔
        s ∈ acc ∨ ∃ t ∈ tables, s ∈ getExpressions t := by
  intro tables
  induction tables with
  | nil => intro acc; simp
  | cons t ts ih =>
    intro acc
    rw [List.foldl_cons, ih]
    constructor
    · rintro (h | ⟨u, hu, hs⟩)
      · rcases List.mem_append.mp h with h | h
        · exact Or.inl h
        · exact Or.inr ⟨t, List.mem_cons_self t ts, h⟩
      · exact Or.inr ⟨u, List.mem_cons_of_mem t hu, hs⟩
    · rintro (h | ⟨u, hu, hs⟩)
      · exact Or.inl (List.mem_append.mpr (Or.inl h))
      · rcases List.mem_cons.mp hu with rfl | hu2
        · exact Or.inl (List.mem_append.mpr (Or.inr hs))
        · exact Or.inr ⟨u, hu2, hs⟩

/-- C8: all_expressions returns the union of the expressions held by all
open tables, without duplicates and sorted in the lexicographic string
order; on two tables holding b, a and a, c it returns a, b, c. -/
theorem all_expressions_spec (tables : List (List Row)) (s : String) :
    (all_expressions tables).Sorted (fun s t => strLe s t = true) ∧
    (all_expressions tables).Nodup ∧
    (s ∈ all_expressions tables ↔ ∃ t ∈ tables, s ∈ getExpressions t) ∧
    all_expressions [[mkRow "b", mkRow "a"], [mkRow "a", mkRow "c"]] = ["a", "b", "c"] := by
  refine ⟨List.sorted_insertionSort _ _, ?_, ?_, by decide⟩
  · exact (List.perm_insertionSort _ _).nodup_iff.mpr (List.nodup_dedup _)
  · rw [all_expressions, List.mem_insertionSort, List.mem_dedup,
      mem_foldl_getExpressions]
    simp

/-- A 513-character evaluation result used to exhibit the truncation
behavior of the kernel backend. -/
def bigVal : String := String.mk (List.replicate 513 'a')

/-- C9 counterexample: a 513-character result is longer than 512, so it is
truncated to its first 512 characters plus the one-character ellipsis
marker, a value string of 513 characters, which exceeds the claimed
512-character bound. -/
theorem eval_value_exceeds_512 :
    ∃ out v, eval_watchlist_expressions (fun _ => Except.ok bigVal) ["x"] false false
        = some out ∧ out = [("x", v, none)] ∧ 512 < v.length := by
  refine ⟨[("x", truncateValue bigVal, none)], truncateValue bigVal, rfl, rfl, ?_⟩
  have hlen : bigVal.length = 513 := by
    rw [bigVal, String.length_mk, List.length_replicate]
  unfold truncateValue
  rw [if_pos (by omega)]
  rw [String.length_append, String.length_mk, List.length_take]
  have hmarker : ("…" : String).length = 1 := rfl
  have htl : bigVal.toList.length = 513 := hlen
  rw [hmarker]
  omega

theorem truncateValue_length_le (v : String) : (truncateValue v).length ≤ 513 := by
  unfold truncateValue
  split
  · rename_i h
    rw [String.length_append, String.length_mk, List.length_take]
    have hmarker : ("…" : String).length = 1 := rfl
    rw [hmarker]
    have h2 : min 512 v.toList.length ≤ 512 := Nat.min_le_left _ _
    omega
  · rename_i h
    omega

/-- C9 amended: every success value string is capped at 513 characters:
the stringified result itself when it has at most 512 characters, and its
first 512 characters with the one-character ellipsis marker appended
otherwise; every per-expression failure is caught and returned as the
tuple of expression, failure message and failure class name without
aborting the batch, which holds one tuple per stored expression in
order. -/
theorem eval_watchlist_expressions_spec (ev : String → Except (String × String) String)
    (exprs : List String) (dbgOnly isDbg : Bool)
    (hmode : dbgOnly = false ∨ isDbg = true) (i : Nat) (hi : i < exprs.length) :
    ∃ out e, eval_watchlist_expressions ev exprs dbgOnly isDbg = some out ∧
      out.length = exprs.length ∧ exprs[i]? = some e ∧
      ((∃ v, ev e = Except.ok v ∧ out[i]? = some (e, truncateValue v, none) ∧
          (truncateValue v).length ≤ 513 ∧
          (v.length ≤ 512 → truncateValue v = v) ∧
          (512 < v.length →
            truncateValue v = String.mk (v.toList.take 512) ++ "…")) ∨
        (∃ m k, ev e = Except.error (m, k) ∧ out[i]? = some (e, m, some k))) := by
  have hcond : (dbgOnly && !isDbg) = false := by
    rcases hmode with h | h <;> simp [h]
  have he : exprs[i]? = some exprs[i] := List.getElem?_eq_getElem hi
  refine ⟨exprs.map fun expr =>
      match ev expr with
      | .ok value => (expr, truncateValue value, none)
      | .error e2 => (expr, e2.1, some e2.2),
    exprs[i], by simp [eval_watchlist_expressions, hcond], by simp, he, ?_⟩
  have hout : (exprs.map fun expr =>
      match ev expr with
      | .ok value => (expr, truncateValue value, none)
      | .error e2 => (expr, e2.1, some e2.2))[i]? =
      some (match ev exprs[i] with
        | .ok value => (exprs[i], truncateValue value, none)
        | .error e2 => (exprs[i], e2.1, some e2.2)) := by
    rw [List.getElem?_map, he]
    rfl
  cases hev : ev exprs[i] with
  | ok v =>
    refine Or.inl ⟨v, rfl, ?_, truncateValue_length_le v, ?_, ?_⟩
    · rw [hout, hev]
    · intro hvle
      unfold truncateValue
      rw [if_neg (by omega)]
    · intro hvgt
      unfold truncateValue
      rw [if_pos (by omega)]
  | error mk2 =>
    refine Or.inr ⟨mk2.1, mk2.2, rfl, ?_⟩
    rw [hout, hev]

/-- C9 amended witness: one succeeding short expression evaluated outside
restricted mode. -/
theorem eval_watchlist_expressions_spec_witness :
    ∃ out e, eval_watchlist_expressions (fun _ => Except.ok "7") ["x"] false false
        = some out ∧
      out.length = ["x"].length ∧ ["x"][0]? = some e ∧
      ((∃ v, (fun (_ : String) => Except.ok (ε := String × String) "7") e = Except.ok v ∧
          out[0]? = some (e, truncateValue v, none) ∧
          (truncateValue v).length ≤ 513 ∧
          (v.length ≤ 512 → truncateValue v = v) ∧
          (512 < v.length →
            truncateValue v = String.mk (v.toList.take 512) ++ "…")) ∨
        (∃ m k, (fun (_ : String) => Except.ok (ε := String × String) "7") e
            = Except.error (m, k) ∧ out[0]? = some (e, m, some k))) :=
  eval_watchlist_expressions_spec (fun _ => Except.ok "7") ["x"] false false
    (Or.inl rfl) 0 (by decide)

end Watchlist
